import Mathlib

/-!
Verification of the assessment (test grading, attempt limiting) and
protected-video (enrollment-gated, byte-range streaming) paths of the
learnwithsaurab course platform, shallowly embedded from `src/server.js`.

Modelling conventions:
* JavaScript strings are lists of UTF-16 code units (`JSStr := List Nat`).
* JavaScript numbers that arise here are either integers (option indices,
  file offsets) or exact decimal fractions produced by the grading
  arithmetic; we model them as `Option Int` (`none` = `NaN`) where `NaN`
  can occur (`parseInt` results) and as `ℚ` for score arithmetic.  The
  source operates on IEEE-754 doubles; for the small integer point values
  and percentages the data model admits, the double arithmetic used by the
  grading path is exact, and the claims are stated in exact arithmetic.
* Fallible evaluation (a thrown `TypeError`) is modelled with `Option`:
  `none` means the handler's `try`/`catch` catches an exception and the
  request ends in a 500 response with nothing persisted.
-/

namespace LWS

/-- A JavaScript string, as its list of UTF-16 code units. -/
abbrev JSStr := List Nat

/-- A JavaScript number that is either an integer or `NaN` (`none`). -/
abbrev JSNum := Option Int

/-- Code points treated as whitespace by `parseInt` (ASCII part). -/
def isWs (c : Nat) : Bool :=
  c = 32 || c = 9 || c = 10 || c = 11 || c = 12 || c = 13

/-- ASCII decimal digit. -/
def isDigit (c : Nat) : Bool := 48 ≤ c && c ≤ 57

/-- ASCII hexadecimal digit. -/
def isHexDigit (c : Nat) : Bool :=
  (48 ≤ c && c ≤ 57) || (97 ≤ c && c ≤ 102) || (65 ≤ c && c ≤ 70)

/-- Numeric value of a hexadecimal digit code unit. -/
def hexVal (c : Nat) : Nat :=
  if 97 ≤ c then c - 87 else if 65 ≤ c then c - 55 else c - 48

/-- Decimal digits of `n`, least significant first, with explicit fuel so
that the definition is structurally recursive (the fuel `n` itself always
suffices). -/
def digitsRevF : Nat → Nat → List Nat
  | 0, n => [n]
  | fuel + 1, n => if n < 10 then [n] else n % 10 :: digitsRevF fuel (n / 10)

/-- Decimal digits of `n`, least significant first. -/
def digitsRev (n : Nat) : List Nat := digitsRevF n n

/-- Reassemble a least-significant-first digit list into a number. -/
def undigitsRev : List Nat → Nat
  | [] => 0
  | d :: ds => d + 10 * undigitsRev ds

theorem digitsRevF_fuel_irrel :
    ∀ fuel₁ fuel₂ n, n ≤ fuel₁ → n ≤ fuel₂ → digitsRevF fuel₁ n = digitsRevF fuel₂ n := by
  intro fuel₁
  induction fuel₁ with
  | zero =>
    intro fuel₂ n h1 _
    have hn : n = 0 := Nat.le_zero.mp h1
    subst hn
    cases fuel₂ <;> simp [digitsRevF]
  | succ f ih =>
    intro fuel₂ n h1 h2
    cases fuel₂ with
    | zero =>
      have hn : n = 0 := Nat.le_zero.mp h2
      subst hn
      simp [digitsRevF]
    | succ g =>
      by_cases h10 : n < 10
      · simp [digitsRevF, h10]
      · have hdiv : n / 10 < n := Nat.div_lt_self (by omega) (by omega)
        simp only [digitsRevF, if_neg h10]
        rw [ih g (n / 10) (by omega) (by omega)]

theorem digitsRev_eq (n : Nat) :
    digitsRev n = if n < 10 then [n] else n % 10 :: digitsRev (n / 10) := by
  unfold digitsRev
  cases hn : n with
  | zero => simp [digitsRevF]
  | succ m =>
    simp only [digitsRevF]
    by_cases h10 : m + 1 < 10
    · simp [h10]
    · rw [if_neg h10, if_neg h10]
      have hdiv : (m + 1) / 10 < m + 1 := Nat.div_lt_self (by omega) (by omega)
      rw [digitsRevF_fuel_irrel m ((m + 1) / 10) ((m + 1) / 10) (by omega) (le_refl _)]

theorem digitsRev_strong_ind (P : Nat → Prop)
    (h1 : ∀ n, n < 10 → P n)
    (h2 : ∀ n, ¬ n < 10 → P (n / 10) → P n) : ∀ n, P n := by
  intro n
  induction n using Nat.strong_induction_on with
  | _ n ih =>
    by_cases h : n < 10
    · exact h1 n h
    · exact h2 n h (ih (n / 10) (Nat.div_lt_self (by omega) (by omega)))

theorem undigitsRev_digitsRev (n : Nat) : undigitsRev (digitsRev n) = n := by
  induction n using digitsRev_strong_ind with
  | h1 n h => rw [digitsRev_eq, if_pos h]; simp [undigitsRev]
  | h2 n h ih =>
    rw [digitsRev_eq, if_neg h]
    simp only [undigitsRev, ih]
    omega

theorem digitsRev_ne_nil (n : Nat) : digitsRev n ≠ [] := by
  rw [digitsRev_eq]
  split <;> simp

theorem digitsRev_lt_ten (n : Nat) : ∀ d ∈ digitsRev n, d < 10 := by
  induction n using digitsRev_strong_ind with
  | h1 n h => rw [digitsRev_eq, if_pos h]; simpa using h
  | h2 n h ih =>
    rw [digitsRev_eq, if_neg h]
    intro d hd
    rcases List.mem_cons.mp hd with h1 | h1
    · omega
    · exact ih d h1

/-- Decimal character codes of a natural number, as JavaScript's
`Number.prototype.toString` produces for integers below `1e21`. -/
def natDecChars (n : Nat) : JSStr := (digitsRev n).reverse.map (fun d => 48 + d)

theorem natDecChars_ne_nil (n : Nat) : natDecChars n ≠ [] := by
  simp [natDecChars, digitsRev_ne_nil n]

theorem natDecChars_digits (n : Nat) : ∀ c ∈ natDecChars n, 48 ≤ c ∧ c ≤ 57 := by
  intro c hc
  simp only [natDecChars, List.mem_map, List.mem_reverse] at hc
  obtain ⟨d, hd, rfl⟩ := hc
  have := digitsRev_lt_ten n d hd
  omega

/-- Decimal character codes of an integer (sign then digits). -/
def intDecChars (i : Int) : JSStr :=
  if i < 0 then 45 :: natDecChars i.natAbs else natDecChars i.toNat

/-- Longest leading run of decimal digits, as a number; `none` when the
first character is not a digit (`parseInt` yields `NaN`). -/
def parseDecDigits (s : JSStr) : Option Nat :=
  match s.takeWhile isDigit with
  | [] => none
  | ds => some (ds.foldl (fun a c => 10 * a + (c - 48)) 0)

/-- Longest leading run of hexadecimal digits, as a number. -/
def parseHexDigits (s : JSStr) : Option Nat :=
  match s.takeWhile isHexDigit with
  | [] => none
  | ds => some (ds.foldl (fun a c => 16 * a + hexVal c) 0)

/-- An unsigned `parseInt` body: a `0x`/`0X` prefix selects hexadecimal,
otherwise the leading decimal digits are read. -/
def parseUnsigned (s : JSStr) : Option Nat :=
  match s with
  | c :: x :: r =>
    if c = 48 ∧ (x = 120 ∨ x = 88) then parseHexDigits r else parseDecDigits s
  | _ => parseDecDigits s

/-- JavaScript's `parseInt(s)` (default radix): skip whitespace, read an
optional sign, then the longest digit run; `NaN` (`none`) when no digit
follows. -/
def parseIntJS (s : JSStr) : JSNum :=
  match s.dropWhile isWs with
  | [] => none
  | c :: r =>
    if c = 43 then (parseUnsigned r).map (fun n => (n : Int))
    else if c = 45 then (parseUnsigned r).map (fun n => -(n : Int))
    else (parseUnsigned (c :: r)).map (fun n => (n : Int))

theorem foldl_digits_reverse (l : List Nat) (a : Nat) :
    l.reverse.foldl (fun x d => 10 * x + d) a = a * 10 ^ l.length + undigitsRev l := by
  induction l generalizing a with
  | nil => simp [undigitsRev]
  | cons d ds ih =>
    simp only [List.reverse_cons, List.foldl_append, List.foldl_cons, List.foldl_nil,
      undigitsRev, ih, List.length_cons]
    ring

theorem parseDecDigits_natDecChars (n : Nat) : parseDecDigits (natDecChars n) = some n := by
  have hall : (natDecChars n).takeWhile isDigit = natDecChars n := by
    apply List.takeWhile_eq_self_iff.mpr
    intro c hc
    have := natDecChars_digits n c hc
    simp [isDigit]; omega
  have hne := natDecChars_ne_nil n
  have hfold : parseDecDigits (natDecChars n) =
      some ((natDecChars n).foldl (fun a c => 10 * a + (c - 48)) 0) := by
    match hmatch : natDecChars n with
    | [] => exact absurd hmatch hne
    | c :: cs =>
      unfold parseDecDigits
      rw [← hmatch, hall, hmatch]
  rw [hfold]
  congr 1
  have hmap : natDecChars n = ((digitsRev n).reverse).map (fun d => 48 + d) := rfl
  rw [hmap, List.foldl_map]
  have : ∀ (l : List Nat) (a : Nat),
      l.foldl (fun x y => 10 * x + (48 + y - 48)) a = l.foldl (fun x d => 10 * x + d) a := by
    intro l
    induction l with
    | nil => intro a; rfl
    | cons d ds ih => intro a; simp only [List.foldl_cons, ih]; congr 1; omega
  rw [this, foldl_digits_reverse, undigitsRev_digitsRev]
  simp

theorem natDecChars_injective : Function.Injective natDecChars := by
  intro m n h
  have hm := parseDecDigits_natDecChars m
  have hn := parseDecDigits_natDecChars n
  rw [h] at hm
  rw [hm] at hn
  exact Option.some_injective _ hn

theorem natDecChars_head_digit (n : Nat) :
    ∀ c, c ∈ (natDecChars n).head? → 48 ≤ c ∧ c ≤ 57 := by
  intro c hc
  exact natDecChars_digits n c (List.mem_of_mem_head? hc)

theorem intDecChars_injective : Function.Injective intDecChars := by
  intro a b h
  unfold intDecChars at h
  by_cases ha : a < 0 <;> by_cases hb : b < 0
  · rw [if_pos ha, if_pos hb] at h
    have := natDecChars_injective (List.cons_injective h)
    omega
  · rw [if_pos ha, if_neg hb] at h
    exfalso
    have hne := natDecChars_ne_nil b.toNat
    match hmatch : natDecChars b.toNat with
    | [] => exact hne hmatch
    | c :: cs =>
      rw [hmatch] at h
      have hcd : 48 ≤ c ∧ c ≤ 57 := by
        apply natDecChars_digits b.toNat
        rw [hmatch]; exact List.mem_cons_self _ _
      have : (45 : Nat) = c := (List.cons.injEq _ _ _ _ ▸ h).1
      omega
  · rw [if_neg ha, if_pos hb] at h
    exfalso
    have hne := natDecChars_ne_nil a.toNat
    match hmatch : natDecChars a.toNat with
    | [] => exact hne hmatch
    | c :: cs =>
      rw [hmatch] at h
      have hcd : 48 ≤ c ∧ c ≤ 57 := by
        apply natDecChars_digits a.toNat
        rw [hmatch]; exact List.mem_cons_self _ _
      have : c = (45 : Nat) := (List.cons.injEq _ _ _ _ ▸ h).1
      omega
  · rw [if_neg ha, if_neg hb] at h
    have := natDecChars_injective h
    omega

/-! JavaScript string comparison (code-unit lexicographic), string keys of
numbers for the default `Array.prototype.sort`, and the `arraysEqual`
helper of `src/server.js` (strict `!==` element comparison, so `NaN`
never compares equal). -/

/-- Code-unit lexicographic order on strings, as JavaScript's `<`/`>`
string comparison used by the default sort comparator. -/
def lexLe : JSStr → JSStr → Bool
  | [], _ => true
  | _ :: _, [] => false
  | a :: as, b :: bs => if a < b then true else if b < a then false else lexLe as bs

theorem lexLe_refl (s : JSStr) : lexLe s s = true := by
  induction s with
  | nil => rfl
  | cons a as ih => simp [lexLe, ih]

theorem lexLe_total (s t : JSStr) : lexLe s t = true ∨ lexLe t s = true := by
  induction s generalizing t with
  | nil => left; rfl
  | cons a as ih =>
    cases t with
    | nil => right; rfl
    | cons b bs =>
      by_cases hab : a < b
      · left; simp [lexLe, hab]
      · by_cases hba : b < a
        · right; simp [lexLe, hba]
        · rcases ih bs with h | h
          · left; simp [lexLe, hab, hba, h]
          · right; simp [lexLe, hab, hba, h]

theorem lexLe_antisymm : ∀ s t : JSStr, lexLe s t = true → lexLe t s = true → s = t := by
  intro s
  induction s with
  | nil =>
    intro t _ h2
    cases t with
    | nil => rfl
    | cons b bs => simp [lexLe] at h2
  | cons a as ih =>
    intro t h1 h2
    cases t with
    | nil => simp [lexLe] at h1
    | cons b bs =>
      rcases Nat.lt_trichotomy a b with hab | hab | hab
      · simp [lexLe, hab, Nat.lt_asymm hab] at h2
      · subst hab
        simp only [lexLe, if_neg (lt_irrefl a)] at h1 h2
        rw [ih bs h1 h2]
      · simp [lexLe, hab, Nat.lt_asymm hab] at h1

theorem lexLe_trans : ∀ s t u : JSStr,
    lexLe s t = true → lexLe t u = true → lexLe s u = true := by
  intro s
  induction s with
  | nil => intro t u _ _; rfl
  | cons a as ih =>
    intro t u h1 h2
    cases t with
    | nil => simp [lexLe] at h1
    | cons b bs =>
      cases u with
      | nil => simp [lexLe] at h2
      | cons c cs =>
        rcases Nat.lt_trichotomy a b with hab | hab | hab
        · rcases Nat.lt_trichotomy b c with hbc | hbc | hbc
          · simp [lexLe, Nat.lt_trans hab hbc]
          · subst hbc
            simp [lexLe, hab]
          · simp [lexLe, hbc, Nat.lt_asymm hbc] at h2
        · subst hab
          simp only [lexLe, if_neg (lt_irrefl a)] at h1
          rcases Nat.lt_trichotomy a c with hac | hac | hac
          · simp [lexLe, hac]
          · subst hac
            simp only [lexLe, if_neg (lt_irrefl a)] at h2 ⊢
            exact ih _ _ h1 h2
          · simp [lexLe, hac, Nat.lt_asymm hac] at h2
        · simp [lexLe, hab, Nat.lt_asymm hab] at h1

/-- The string `String(v)` of a possibly-`NaN` number: the decimal digits
for an integer, `"NaN"` for `NaN`.  This is the key the default
`Array.prototype.sort` comparator orders by. -/
def numKey (v : JSNum) : JSStr :=
  match v with
  | none => [78, 97, 78]
  | some i => intDecChars i

theorem numKey_injective : Function.Injective numKey := by
  intro a b h
  match a, b with
  | none, none => rfl
  | some i, some j =>
    simp only [numKey] at h
    rw [intDecChars_injective h]
  | none, some j =>
    exfalso
    simp only [numKey, intDecChars] at h
    by_cases hj : j < 0
    · rw [if_pos hj] at h
      have : (78 : Nat) = 45 := (List.cons.injEq _ _ _ _ ▸ h).1
      omega
    · rw [if_neg hj] at h
      have hne := natDecChars_ne_nil j.toNat
      match hmatch : natDecChars j.toNat with
      | [] => exact hne hmatch
      | c :: cs =>
        rw [hmatch] at h
        have hcd := natDecChars_digits j.toNat c (hmatch ▸ List.mem_cons_self _ _)
        have : (78 : Nat) = c := (List.cons.injEq _ _ _ _ ▸ h).1
        omega
  | some i, none =>
    exfalso
    simp only [numKey, intDecChars] at h
    by_cases hi : i < 0
    · rw [if_pos hi] at h
      have : (45 : Nat) = 78 := (List.cons.injEq _ _ _ _ ▸ h).1
      omega
    · rw [if_neg hi] at h
      have hne := natDecChars_ne_nil i.toNat
      match hmatch : natDecChars i.toNat with
      | [] => exact hne hmatch
      | c :: cs =>
        rw [hmatch] at h
        have hcd := natDecChars_digits i.toNat c (hmatch ▸ List.mem_cons_self _ _)
        have : c = (78 : Nat) := (List.cons.injEq _ _ _ _ ▸ h).1
        omega

/-- The default sort comparator's order on numbers: compare their string
forms code-unit-lexicographically. -/
def numLe (a b : JSNum) : Prop := lexLe (numKey a) (numKey b) = true

instance : DecidableRel numLe := fun _ _ => decEq _ _

instance : IsTotal JSNum numLe := ⟨fun a b => lexLe_total (numKey a) (numKey b)⟩

instance : IsTrans JSNum numLe :=
  ⟨fun _ _ _ h1 h2 => lexLe_trans _ _ _ h1 h2⟩

instance : IsAntisymm JSNum numLe :=
  ⟨fun _ _ h1 h2 => numKey_injective (lexLe_antisymm _ _ h1 h2)⟩

/-- The default `selectedOptions.sort()` of `src/server.js`: a stable sort
under the string-key comparator.  Since the key is injective, ties arise
only between identical values and every correct sorting algorithm returns
the same list; we use insertion sort for a structurally recursive model. -/
def jsSortNums (l : List JSNum) : List JSNum := l.insertionSort numLe

/-- JavaScript strict equality `===` on numbers: `NaN` equals nothing. -/
def jsStrictEqNum (a b : JSNum) : Bool :=
  match a, b with
  | some x, some y => x == y
  | _, _ => false

/-- The helper `arraysEqual(a, b)` of `src/server.js`: equal lengths and
element-wise `!==` failure nowhere. -/
def arraysEqual : List JSNum → List JSNum → Bool
  | [], [] => true
  | [], _ :: _ => false
  | _ :: _, [] => false
  | x :: xs, y :: ys => jsStrictEqNum x y && arraysEqual xs ys

theorem arraysEqual_iff_of_some (a b : List JSNum) (hb : ∀ y ∈ b, y.isSome) :
    arraysEqual a b = true ↔ a = b := by
  induction a generalizing b with
  | nil =>
    cases b with
    | nil => simp [arraysEqual]
    | cons y ys => simp [arraysEqual]
  | cons x xs ih =>
    cases b with
    | nil => simp [arraysEqual]
    | cons y ys =>
      have hy : y.isSome := hb y (List.mem_cons_self _ _)
      have hys : ∀ z ∈ ys, z.isSome := fun z hz => hb z (List.mem_cons_of_mem _ hz)
      have hrefl : ∀ z : JSNum, z.isSome = true → jsStrictEqNum z z = true := by
        intro z hz
        match z with
        | some v => simp [jsStrictEqNum]
      simp only [arraysEqual, Bool.and_eq_true, ih ys hys, List.cons.injEq]
      constructor
      · rintro ⟨h1, h2⟩
        refine ⟨?_, h2⟩
        match x, y, hy with
        | some u, some v, _ =>
          simp only [jsStrictEqNum, beq_iff_eq] at h1
          rw [h1]
        | none, some v, _ => simp [jsStrictEqNum] at h1
      · rintro ⟨rfl, h2⟩
        exact ⟨hrefl x hy, h2⟩

/-! Case-insensitive substring containment used for short-answer grading:
`toLowerCase` (ASCII case folding; the source's `toLowerCase` agrees on the
ASCII strings this path compares) and `String.prototype.includes`. -/

/-- ASCII lower-casing of one code unit. -/
def jsLower (c : Nat) : Nat := if 65 ≤ c ∧ c ≤ 90 then c + 32 else c

/-- The model of `s.toLowerCase()`. -/
def lowerStr (s : JSStr) : JSStr := s.map jsLower

/-- Boolean test that `p` occurs at the start of `s`. -/
def isPrefixB : JSStr → JSStr → Bool
  | [], _ => true
  | _ :: _, [] => false
  | a :: as, b :: bs => a == b && isPrefixB as bs

/-- The model of `big.includes(small)`. -/
def containsSub : JSStr → JSStr → Bool
  | [], small => isPrefixB small []
  | b :: bs, small => isPrefixB small (b :: bs) || containsSub bs small

theorem isPrefixB_iff (p s : JSStr) : isPrefixB p s = true ↔ ∃ t, p ++ t = s := by
  induction p generalizing s with
  | nil => simp [isPrefixB]
  | cons a as ih =>
    cases s with
    | nil =>
      simp only [isPrefixB, List.cons_append]
      constructor
      · intro h; exact absurd h (by simp)
      · rintro ⟨t, ht⟩; exact absurd ht (by simp)
    | cons b bs =>
      simp only [isPrefixB, Bool.and_eq_true, beq_iff_eq, ih, List.cons_append,
        List.cons.injEq]
      constructor
      · rintro ⟨rfl, t, rfl⟩; exact ⟨t, rfl, rfl⟩
      · rintro ⟨t, rfl, rfl⟩; exact ⟨rfl, t, rfl⟩

theorem containsSub_iff (big small : JSStr) :
    containsSub big small = true ↔ small <:+: big := by
  induction big with
  | nil =>
    simp only [containsSub, isPrefixB_iff]
    constructor
    · rintro ⟨t, ht⟩
      have hs : small = [] := by
        cases small with
        | nil => rfl
        | cons c cs => simp at ht
      subst hs
      exact ⟨[], [], rfl⟩
    · rintro ⟨s, t, ht⟩
      have hlen := congrArg List.length ht
      simp only [List.length_append, List.length_nil] at hlen
      have hs : small = [] := List.eq_nil_of_length_eq_zero (by omega)
      subst hs
      exact ⟨[], rfl⟩
  | cons b bs ih =>
    simp only [containsSub, Bool.or_eq_true, isPrefixB_iff, ih]
    constructor
    · rintro (⟨t, ht⟩ | ⟨s, t, ht⟩)
      · exact ⟨[], t, by simpa using ht⟩
      · exact ⟨b :: s, t, by simp [ht]⟩
    · rintro ⟨s, t, ht⟩
      cases s with
      | nil => left; exact ⟨t, by simpa using ht⟩
      | cons c cs =>
        right
        simp only [List.cons_append, List.cons.injEq] at ht
        exact ⟨cs, t, ht.2⟩

/-! Generic single-character split (`String.prototype.split` with a
one-character separator) and first-occurrence replacement
(`String.prototype.replace` with a non-global pattern). -/

/-- The model of `s.split(sep)` for a one-character separator. -/
def splitChar (sep : Nat) : JSStr → List JSStr
  | [] => [[]]
  | c :: cs =>
    if c = sep then [] :: splitChar sep cs
    else
      match splitChar sep cs with
      | [] => [[c]]
      | h :: t => (c :: h) :: t

theorem splitChar_ne_nil (sep : Nat) (s : JSStr) : splitChar sep s ≠ [] := by
  cases s with
  | nil => simp [splitChar]
  | cons c cs =>
    simp only [splitChar]
    split
    · simp
    · split <;> simp

theorem splitChar_no_sep (sep : Nat) (s : JSStr) (h : ∀ c ∈ s, c ≠ sep) :
    splitChar sep s = [s] := by
  induction s with
  | nil => rfl
  | cons c cs ih =>
    have hc : c ≠ sep := h c (List.mem_cons_self _ _)
    have hcs : ∀ x ∈ cs, x ≠ sep := fun x hx => h x (List.mem_cons_of_mem _ hx)
    simp only [splitChar, if_neg hc, ih hcs]

theorem splitChar_append_sep (sep : Nat) (a b : JSStr) (h : ∀ c ∈ a, c ≠ sep) :
    splitChar sep (a ++ sep :: b) = a :: splitChar sep b := by
  induction a with
  | nil => simp [splitChar]
  | cons c cs ih =>
    have hc : c ≠ sep := h c (List.mem_cons_self _ _)
    have hcs : ∀ x ∈ cs, x ≠ sep := fun x hx => h x (List.mem_cons_of_mem _ hx)
    simp only [List.cons_append, splitChar, if_neg hc, List.append_eq]
    rw [ih hcs]

/-- The model of `s.replace(pat, '')` for a plain (non-global) pattern:
remove the first occurrence of `pat`, if any. -/
def replaceFirst (pat : JSStr) : JSStr → JSStr
  | [] => []
  | c :: cs =>
    if isPrefixB pat (c :: cs) then (c :: cs).drop pat.length
    else c :: replaceFirst pat cs

theorem isPrefixB_append (p t : JSStr) : isPrefixB p (p ++ t) = true := by
  rw [isPrefixB_iff]
  exact ⟨t, rfl⟩

theorem replaceFirst_of_lead (pat rest : JSStr) (hne : pat ≠ []) :
    replaceFirst pat (pat ++ rest) = rest := by
  match pat, hne with
  | p :: ps, _ =>
    simp only [List.cons_append, replaceFirst]
    rw [if_pos (by have := isPrefixB_append (p :: ps) rest; simpa using this)]
    exact List.drop_left (p :: ps) rest

/-! The data model of `src/server.js` (testSchema, testResultSchema,
userSchema).  Presentation-only fields (titles, descriptions, images,
durations, timestamps) are elided; they are never read by the grading or
authorization logic under verification.  Mongo ObjectIds are opaque
identifiers, modelled as `Nat`. -/

/-- One entry of a question's `options` array (`text`/`image` elided). -/
structure AnswerOption where
  isCorrect : Bool
deriving DecidableEq

/-- The `questionType` enum of the test schema. -/
inductive QuestionType where
  | multipleChoiceSingle
  | multipleChoiceMultiple
  | trueFalse
  | shortAnswer
deriving DecidableEq

/-- One entry of a test's `questions` array.  `points` is a JavaScript
number; the admin forms create it with `parseInt(...) || 1`. -/
structure Question where
  questionType : QuestionType
  options : List AnswerOption
  correctAnswer : JSStr
  points : ℚ
deriving DecidableEq

/-- A `Test` document (scheduling and presentation fields elided). -/
structure Test where
  courseId : Nat
  maxAttempts : Nat
  passPercentage : ℚ
  hasNegativeMarking : Bool
  negativeMarkingPercentage : ℚ
  questions : List Question
deriving DecidableEq

/-- A `User` document: its id and its `enrolledCourses` ObjectId list. -/
structure User where
  id : Nat
  enrolledCourses : List Nat
deriving DecidableEq

/-- One question's submitted answer value inside `req.body.answers`, as the
urlencoded body parser produces it: a string (radio / text inputs) or an
array of strings (checkbox inputs). -/
inductive AnswerPayload where
  | str (s : JSStr)
  | arr (l : List JSStr)
deriving DecidableEq

/-- The `answers` mapping of a submission: question index to payload,
`none` where no value was posted for that index. -/
abbrev Submission := Nat → Option AnswerPayload

/-- JavaScript's `String(v)` for a payload value, as `parseInt` receives it
when handed a non-string: an array converts to its comma-joined elements. -/
def payloadToString : AnswerPayload → JSStr
  | .str s => s
  | .arr l => (l.intersperse [44]).flatten

/-- The value stored in a persisted answer's `selectedOption` field. -/
inductive StoredSelection where
  | undef
  | single (n : JSNum)
  | multi (l : List JSNum)
deriving DecidableEq

/-- One element of a persisted `TestResult.answers` array. -/
structure ProcessedAnswer where
  questionIndex : Nat
  selectedOption : StoredSelection
  answerText : Option JSStr
  isCorrect : Bool
  pointsEarned : ℚ
deriving DecidableEq

/-! The grading pass of `POST /test/:testId/submit`
(`src/server.js:8263-8318`), one definition per source construct. -/

/-- The `correctOptions` computation:
`question.options.map((opt, i) => opt.isCorrect ? i : -1)` with a running
index, before the `.filter(i => i !== -1)`. -/
def correctOptionsAux : Nat → List AnswerOption → List JSNum
  | _, [] => []
  | i, o :: os =>
    (if o.isCorrect then some (i : Int) else some (-1)) :: correctOptionsAux (i + 1) os

/-- The `correctOptions` array: indices of the options flagged correct. -/
def correctOptions (opts : List AnswerOption) : List JSNum :=
  (correctOptionsAux 0 opts).filter (fun x => x ≠ some (-1 : Int))

/-- The `selectedOptions` computation for a multi-select question:
an array payload maps each element through `parseInt`; a present scalar
becomes a one-element array; an absent answer becomes `[]`. -/
def selectedNums : Option AnswerPayload → List JSNum
  | some (.arr l) => l.map parseIntJS
  | some (.str s) => [parseIntJS s]
  | none => []

/-- Multi-select correctness:
`arraysEqual(selectedOptions.sort(), correctOptions.sort())`. -/
def mcmIsCorrect (ua : Option AnswerPayload) (opts : List AnswerOption) : Bool :=
  arraysEqual (jsSortNums (selectedNums ua)) (jsSortNums (correctOptions opts))

/-- The lookup `question.options[selectedOption]?.isCorrect || false` for a
possibly-`NaN`, possibly out-of-range index. -/
def optionIsCorrectAt (opts : List AnswerOption) (sel : JSNum) : Bool :=
  match sel with
  | none => false
  | some i => if i < 0 then false else ((opts.get? i.toNat).map (·.isCorrect)).getD false

/-- Single-choice / true-false correctness:
`selectedOption = userAnswer !== undefined ? parseInt(userAnswer) : -1`,
then the guarded option lookup. -/
def scIsCorrect (ua : Option AnswerPayload) (opts : List AnswerOption) : Bool :=
  match ua with
  | none => optionIsCorrectAt opts (some (-1))
  | some p => optionIsCorrectAt opts (parseIntJS (payloadToString p))

/-- Short-answer correctness
(`question.correctAnswer && userAnswer && (ref.includes(sub) || sub.includes(ref))`
on lower-cased strings).  `none` models the `TypeError` thrown when an
array payload (truthy, but without `toLowerCase`) reaches this branch. -/
def saIsCorrect (ref : JSStr) (ua : Option AnswerPayload) : Option Bool :=
  match ua with
  | none => some false
  | some (.str s) =>
    if ref = [] then some false
    else if s = [] then some false
    else some (containsSub (lowerStr ref) (lowerStr s)
      || containsSub (lowerStr s) (lowerStr ref))
  | some (.arr _) => if ref = [] then some false else none

/-- Points for a choice-type question: `isCorrect ? points : 0`, then the
negative-marking override
`if (test.hasNegativeMarking && !isCorrect && userAnswer !== undefined)`. -/
def choicePoints (t : Test) (q : Question) (c : Bool) (ua : Option AnswerPayload) : ℚ :=
  if t.hasNegativeMarking && !c && ua.isSome
  then -(q.points * t.negativeMarkingPercentage / 100)
  else if c then q.points else 0

/-- Grade one question: its correctness flag and `pointsEarned`; `none`
when the evaluation throws. -/
def gradeQuestion (t : Test) (q : Question) (ua : Option AnswerPayload) :
    Option (Bool × ℚ) :=
  match q.questionType with
  | .shortAnswer =>
    (saIsCorrect q.correctAnswer ua).map (fun c => (c, if c then q.points else 0))
  | .multipleChoiceMultiple =>
    let c := mcmIsCorrect ua q.options
    some (c, choicePoints t q c ua)
  | _ =>
    let c := scIsCorrect ua q.options
    some (c, choicePoints t q c ua)

/-- The entry pushed onto `processedAnswers` for question `i`. -/
def mkProcessed (i : Nat) (ua : Option AnswerPayload) (c : Bool) (p : ℚ) :
    ProcessedAnswer :=
  { questionIndex := i
  , selectedOption :=
      match ua with
      | some (.arr l) => .multi (l.map parseIntJS)
      | some (.str s) => .single (parseIntJS s)
      | none => .undef
  , answerText := match ua with | some (.str s) => some s | _ => none
  , isCorrect := c
  , pointsEarned := p }

/-- The `test.questions.forEach((question, index) => ...)` grading loop,
producing the `processedAnswers` array; `none` when an iteration throws
(the exception aborts the loop and the surrounding handler catches it). -/
def gradeAll (t : Test) : List Question → Nat → Submission → Option (List ProcessedAnswer)
  | [], _, _ => some []
  | q :: qs, i, sub =>
    match gradeQuestion t q (sub i) with
    | none => none
    | some (c, p) =>
      match gradeAll t qs (i + 1) sub with
      | none => none
      | some rest => some (mkProcessed i (sub i) c p :: rest)

/-- Math.round: round half toward positive infinity. -/
def jsRound (q : ℚ) : Int := ⌊q + 1 / 2⌋

/-- The aggregate part of a persisted `TestResult`. -/
structure GradeOutcome where
  answers : List ProcessedAnswer
  score : ℚ
  totalPoints : ℚ
  percentage : Int
  passed : Bool
deriving DecidableEq

/-- The whole grading pass: per-question grading, the post-summation clamp
`score = Math.max(0, score)`, `percentage = Math.round(score/totalPoints*100)`
and `passed = percentage >= test.passPercentage`.  The source accumulates
`score` and `totalPoints` inside the loop; exact addition is commutative,
so they are the list sums.  For `totalPoints = 0` the source divides by
zero (`NaN` percentage) while `ℚ` division yields 0; every claim about the
aggregate assumes at least one question with positive points, where the
two agree. -/
def gradeTest (t : Test) (sub : Submission) : Option GradeOutcome :=
  match gradeAll t t.questions 0 sub with
  | none => none
  | some pas =>
    let raw := (pas.map (·.pointsEarned)).sum
    let score := max 0 raw
    let totalPoints := (t.questions.map (·.points)).sum
    let percentage := jsRound (score / totalPoints * 100)
    some { answers := pas
         , score := score
         , totalPoints := totalPoints
         , percentage := percentage
         , passed := decide ((percentage : ℚ) ≥ t.passPercentage) }

/-! The two test endpoints.  `previousAttempts` is the result of
`TestResult.countDocuments({testId, studentId})`; the session carries the
authenticated user id or nothing. -/

/-- Outcomes of `GET /test/:testId/take`. -/
inductive TakeResponse where
  | redirectLogin
  | notEnrolled
  | attemptsExceeded
  | testPage
deriving DecidableEq

/-- The guard chain of `GET /test/:testId/take` (`src/server.js:8108-8149`):
session, enrollment (`user.enrolledCourses.includes(test.courseId)`), then
the attempt count against `test.maxAttempts`. -/
def takeHandler (session : Option Nat) (t : Test) (u : User) (previousAttempts : Nat) :
    TakeResponse :=
  match session with
  | none => .redirectLogin
  | some _ =>
    if ¬ (t.courseId ∈ u.enrolledCourses) then .notEnrolled
    else if previousAttempts ≥ t.maxAttempts then .attemptsExceeded
    else .testPage

/-- A persisted `TestResult` document (testId implicit in the handler). -/
structure SavedTestResult where
  studentId : Nat
  outcome : GradeOutcome
deriving DecidableEq

/-- Outcomes of `POST /test/:testId/submit`. -/
inductive SubmitResponse where
  | redirectLogin
  | resultsPage (r : GradeOutcome)
  | serverError
deriving DecidableEq

/-- The submit handler (`src/server.js:8249-8332`): after the session
check it grades and persists unconditionally — it consults neither the
enrollment list nor the prior attempt count.  The second component is the
`TestResult` the handler saves, if any. -/
def submitHandler (session : Option Nat) (t : Test) (u : User) (sub : Submission) :
    SubmitResponse × Option SavedTestResult :=
  match session with
  | none => (.redirectLogin, none)
  | some _ =>
    match gradeTest t sub with
    | none => (.serverError, none)
    | some r => (.resultsPage r, some ⟨u.id, r⟩)

/-! The protected-video endpoint `GET /protected-video/:videoId`
(`src/server.js:10424-10496`).  `requireAuth` has already admitted the
request; the user's `enrolledCourses` arrive populated as course
documents.  The file on disk is its byte list, `none` when
`fs.existsSync` fails. -/

/-- A module's video entry (`videoUrl` is the stored reference). -/
structure Video where
  videoUrl : JSStr
deriving DecidableEq

/-- A course module; a missing `videos` array is the empty list. -/
structure CourseModule where
  videos : List Video
deriving DecidableEq

/-- A populated course document. -/
structure Course where
  id : Nat
  modules : List CourseModule
deriving DecidableEq

/-- The reference resolution `v.videoUrl.split('/').pop()`. -/
def lastSegment (s : JSStr) : JSStr := (splitChar 47 s).getLastD []

/-- The predicate of the `module.videos.find(...)` callback. -/
def videoMatches (vid : JSStr) (v : Video) : Bool := lastSegment v.videoUrl == vid

/-- Whether the scan of one course's modules finds the video. -/
def courseHasVideo (vid : JSStr) (c : Course) : Bool :=
  c.modules.any (fun m => m.videos.any (videoMatches vid))

/-- The `hasAccess` scan over all enrolled courses (the source's nested
`for` loops with early `break` compute exactly this disjunction). -/
def hasAccess (enrolled : List Course) (vid : JSStr) : Bool :=
  enrolled.any (courseHasVideo vid)

/-- Responses of the protected-video endpoint.  `partialContent` carries
the declared `Content-Range` offsets, the declared `Content-Length` and
the streamed bytes; `serverError` is the route's `catch` (500). -/
inductive VideoResponse where
  | notFound
  | accessDenied
  | partialContent (rangeStart rangeEnd : Int) (fileSize : Nat)
      (contentLength : Int) (body : List Nat)
  | fullContent (contentLength : Nat) (body : List Nat)
  | serverError
deriving DecidableEq

/-- The byte window `fs.createReadStream(path, {start, end})` streams for
`0 ≤ start ≤ end < size`: bytes `start..end` inclusive. -/
def sliceFile (file : List Nat) (s e : Int) : List Nat :=
  (file.drop s.toNat).take (e - s + 1).toNat

/-- The `"bytes="` pattern of the range parser. -/
def bytesEq : JSStr := [98, 121, 116, 101, 115, 61]

/-- The streaming part of the handler: existence check, access scan, then
either the range branch
(`range.replace(/bytes=/, "").split("-")`, `parseInt(parts[0], 10)`,
`parts[1] ? parseInt(parts[1], 10) : fileSize - 1`) with a 206 response, or
a 200 response with the whole file.  A `NaN` offset reaching
`fs.createReadStream` makes Node's option validation throw
(`ERR_OUT_OF_RANGE`), so the route's `catch` answers 500: that is the
`serverError` arm. -/
def protectedVideo (fileData : Option (List Nat)) (enrolled : List Course)
    (vid : JSStr) (rangeHeader : Option JSStr) : VideoResponse :=
  match fileData with
  | none => .notFound
  | some file =>
    if ¬ hasAccess enrolled vid then .accessDenied
    else
      let fileSize := file.length
      match rangeHeader with
      | none => .fullContent fileSize file
      | some r =>
        let parts := splitChar 45 (replaceFirst bytesEq r)
        let startN := parseIntJS (parts.headD [])
        let endN : JSNum :=
          match parts.get? 1 with
          | none => some ((fileSize : Int) - 1)
          | some t => if t = [] then some ((fileSize : Int) - 1) else parseIntJS t
        match startN, endN with
        | some s, some e =>
          .partialContent s e fileSize (e - s + 1) (sliceFile file s e)
        | _, _ => .serverError

/-! Claim theorems. -/

/-- C10: for every authenticated student and existing test, the submit
handler grades and persists a new TestResult regardless of the student's
enrollment: its entire outcome is independent of `enrolledCourses`, any
successful grading is persisted, and — unlike the take handler, which
refuses unenrolled students — no enrollment check occurs before saving. -/
theorem submit_ignores_enrollment (s : Option Nat) (t : Test) (u₁ u₂ : User)
    (sub : Submission) (hid : u₁.id = u₂.id) :
    submitHandler s t u₁ sub = submitHandler s t u₂ sub
    ∧ (∀ uid r, gradeTest t sub = some r →
        submitHandler (some uid) t u₁ sub = (.resultsPage r, some ⟨u₁.id, r⟩))
    ∧ (∀ uid prev, t.courseId ∉ u₁.enrolledCourses →
        takeHandler (some uid) t u₁ prev = .notEnrolled) := by
  refine ⟨?_, ?_, ?_⟩
  · unfold submitHandler
    cases s with
    | none => rfl
    | some uid =>
      cases gradeTest t sub with
      | none => rfl
      | some r => rw [hid]
  · intro uid r hr
    unfold submitHandler
    rw [hr]
  · intro uid prev hne
    simp [takeHandler, hne]

/-- C10 witness: a student enrolled nowhere and a student enrolled in the
test's course receive identical submit outcomes, while the take endpoint
turns the unenrolled student away. -/
theorem submit_ignores_enrollment_witness :
    submitHandler (some 7) ⟨5, 1, 60, false, 25,
        [⟨.multipleChoiceSingle, [⟨true⟩, ⟨false⟩], [], 1⟩]⟩ ⟨7, []⟩
        (fun i => if i = 0 then some (.str [48]) else none)
      = submitHandler (some 7) ⟨5, 1, 60, false, 25,
        [⟨.multipleChoiceSingle, [⟨true⟩, ⟨false⟩], [], 1⟩]⟩ ⟨7, [5]⟩
        (fun i => if i = 0 then some (.str [48]) else none)
    ∧ takeHandler (some 7) ⟨5, 1, 60, false, 25,
        [⟨.multipleChoiceSingle, [⟨true⟩, ⟨false⟩], [], 1⟩]⟩ ⟨7, []⟩ 0
      = .notEnrolled := by
  have h := submit_ignores_enrollment (some 7)
    ⟨5, 1, 60, false, 25, [⟨.multipleChoiceSingle, [⟨true⟩, ⟨false⟩], [], 1⟩]⟩
    ⟨7, []⟩ ⟨7, [5]⟩ (fun i => if i = 0 then some (.str [48]) else none) rfl
  exact ⟨h.1, h.2.2 7 0 (by decide)⟩

/-- C1 (divergence): after exactly `maxAttempts` persisted results the take
endpoint refuses a further attempt, but the submit endpoint, which never
consults the attempt count, still grades the submission and persists one
more TestResult — the invariant the claim states does not hold. -/
theorem attempt_limit_not_enforced_on_submit :
    takeHandler (some 1) ⟨5, 1, 60, false, 25,
        [⟨.multipleChoiceSingle, [⟨true⟩, ⟨false⟩], [], 1⟩]⟩ ⟨1, [5]⟩ 1
      = .attemptsExceeded
    ∧ ((submitHandler (some 1) ⟨5, 1, 60, false, 25,
        [⟨.multipleChoiceSingle, [⟨true⟩, ⟨false⟩], [], 1⟩]⟩ ⟨1, [5]⟩
        (fun i => if i = 0 then some (.str [48]) else none)).2).isSome = true := by
  constructor
  · decide
  · decide

theorem correctOptionsAux_isSome :
    ∀ (os : List AnswerOption) (i : Nat), ∀ x ∈ correctOptionsAux i os, x.isSome := by
  intro os
  induction os with
  | nil => intro i x hx; simp [correctOptionsAux] at hx
  | cons o os ih =>
    intro i x hx
    simp only [correctOptionsAux, List.mem_cons] at hx
    rcases hx with h | h
    · subst h
      split <;> rfl
    · exact ih (i + 1) x h

theorem correctOptions_isSome (opts : List AnswerOption) :
    ∀ x ∈ correctOptions opts, x.isSome := by
  intro x hx
  exact correctOptionsAux_isSome opts 0 x (List.mem_of_mem_filter hx)

theorem jsSortNums_perm (l : List JSNum) : (jsSortNums l).Perm l :=
  List.perm_insertionSort _ _

theorem jsSortNums_sorted (l : List JSNum) : List.Sorted numLe (jsSortNums l) :=
  List.sorted_insertionSort _ _

/-- C4 (divergence): grading compares the two sorted arrays element-wise,
which is multiset equality; a duplicated submitted index therefore grades
incorrect even though the *set* of submitted indices equals the set of
correct indices, contradicting the claim's set-equality criterion. -/
theorem mcm_set_equality_counterexample :
    mcmIsCorrect (some (.arr [[48], [48]])) [⟨true⟩, ⟨false⟩] = false
    ∧ (selectedNums (some (.arr [[48], [48]]))).toFinset
        = (correctOptions [⟨true⟩, ⟨false⟩]).toFinset := by
  constructor
  · decide
  · decide

/-- C4 (amended): a multi-select answer grades correct iff the list of
submitted (parsed) indices is a permutation — equal as a multiset — of the
list of option indices flagged correct; for duplicate-free submissions
this coincides with set equality, and subsets/supersets remain incorrect. -/
theorem mcm_grade_iff_perm (ua : Option AnswerPayload) (opts : List AnswerOption) :
    mcmIsCorrect ua opts = true ↔ (selectedNums ua).Perm (correctOptions opts) := by
  have hsome : ∀ y ∈ jsSortNums (correctOptions opts), y.isSome := by
    intro y hy
    exact correctOptions_isSome opts y ((jsSortNums_perm _).mem_iff.mp hy)
  unfold mcmIsCorrect
  rw [arraysEqual_iff_of_some _ _ hsome]
  constructor
  · intro h
    have h1 := (jsSortNums_perm (selectedNums ua)).symm
    rw [h] at h1
    exact h1.trans (jsSortNums_perm _)
  · intro h
    refine List.eq_of_perm_of_sorted ?_ (jsSortNums_sorted _) (jsSortNums_sorted _)
    exact (jsSortNums_perm _).trans (h.trans (jsSortNums_perm _).symm)

/-- C5 (divergence): an empty submitted text is falsy, so the short-answer
branch grades it incorrect even though the reference answer contains the
empty string — the claimed containment criterion says it should be
correct. -/
theorem short_answer_empty_submission_counterexample :
    saIsCorrect [97, 98, 99] (some (.str [])) = some false
    ∧ lowerStr [] <:+: lowerStr [97, 98, 99] := by
  refine ⟨by decide, [], [97, 98, 99], by decide⟩

/-- C5 (amended): for a non-empty reference answer and a *non-empty*
submitted text, the short-answer grade is correct iff case-insensitive
containment holds in either direction. -/
theorem short_answer_containment (ref s : JSStr) (href : ref ≠ []) (hs : s ≠ []) :
    saIsCorrect ref (some (.str s)) = some true
    ↔ (lowerStr s <:+: lowerStr ref ∨ lowerStr ref <:+: lowerStr s) := by
  simp only [saIsCorrect]
  rw [if_neg href, if_neg hs]
  simp only [Option.some.injEq, Bool.or_eq_true, containsSub_iff]

/-- C5 witness: the reference `"abc"` and the submission `"BC"` are
non-empty, the lowered submission is contained in the lowered reference,
and the grade is correct. -/
theorem short_answer_containment_witness :
    ([97, 98, 99] : JSStr) ≠ [] ∧ ([66, 67] : JSStr) ≠ []
    ∧ saIsCorrect [97, 98, 99] (some (.str [66, 67])) = some true := by
  refine ⟨by decide, by decide, ?_⟩
  exact (short_answer_containment [97, 98, 99] [66, 67] (by decide) (by decide)).mpr
    (Or.inl ⟨[97], [], by decide⟩)

/-- C6: access to a video identifier is granted iff the linear scan of the
student's enrolled courses' modules finds a video whose stored reference
resolves (basename of `videoUrl`) to that identifier; a student not
enrolled in the (sole) owning course is refused by the protected-video
endpoint for any header they present, and a student not enrolled in a
test's course is refused by the take endpoint. -/
theorem video_access_control (enrolled : List Course) (vid : JSStr) (file : List Nat)
    (rangeHeader : Option JSStr) :
    (hasAccess enrolled vid = true ↔
      ∃ c ∈ enrolled, ∃ m ∈ c.modules, ∃ v ∈ m.videos, lastSegment v.videoUrl = vid)
    ∧ (∀ owner : Course, courseHasVideo vid owner = true →
        (∀ c ∈ enrolled, courseHasVideo vid c = true → c.id = owner.id) →
        (∀ c ∈ enrolled, c.id ≠ owner.id) →
        protectedVideo (some file) enrolled vid rangeHeader = .accessDenied)
    ∧ (∀ (session : Nat) (t : Test) (u : User) (prev : Nat),
        t.courseId ∉ u.enrolledCourses →
        takeHandler (some session) t u prev = .notEnrolled) := by
  refine ⟨?_, ?_, ?_⟩
  · simp only [hasAccess, courseHasVideo, videoMatches, List.any_eq_true, beq_iff_eq]
  · intro owner howner huniq hne
    have hno : hasAccess enrolled vid = false := by
      by_contra hcon
      have htrue : hasAccess enrolled vid = true := by
        cases h : hasAccess enrolled vid with
        | true => rfl
        | false => exact absurd h hcon
      obtain ⟨c, hc, hcv⟩ := List.any_eq_true.mp htrue
      exact hne c hc (huniq c hc hcv)
    simp [protectedVideo, hno]
  · intro session t u prev hne
    simp [takeHandler, hne]

/-- C6 witness: a student enrolled only in a course without the video is
denied the video owned by another course, and an unenrolled student is
turned away from a test's take endpoint. -/
theorem video_access_control_witness :
    protectedVideo (some [9]) [⟨3, [⟨[⟨[118, 49]⟩]⟩]⟩] [118, 50] none = .accessDenied
    ∧ takeHandler (some 1) ⟨5, 1, 60, false, 25, []⟩ ⟨7, []⟩ 0 = .notEnrolled := by
  have h := video_access_control [⟨3, [⟨[⟨[118, 49]⟩]⟩]⟩] [118, 50] [9] none
  exact ⟨h.2.1 ⟨4, [⟨[⟨[118, 50]⟩]⟩]⟩ (by decide) (by decide) (by decide),
    h.2.2 1 ⟨5, 1, 60, false, 25, []⟩ ⟨7, []⟩ 0 (by decide)⟩

/-- C8 (divergence): a syntactically invalid range header still enters the
range branch; `parseInt` produces `NaN`, Node's stream-option validation
throws, and the route's catch answers 500 — the server never falls back to
a full-content response as the specification requires. -/
theorem malformed_range_not_full_content :
    protectedVideo (some [9, 8, 7, 6]) [⟨3, [⟨[⟨[118, 49]⟩]⟩]⟩] [118, 49]
        (some (bytesEq ++ [97, 98, 99])) = .serverError
    ∧ ∀ (n : Nat) (b : List Nat),
        protectedVideo (some [9, 8, 7, 6]) [⟨3, [⟨[⟨[118, 49]⟩]⟩]⟩] [118, 49]
          (some (bytesEq ++ [97, 98, 99])) ≠ .fullContent n b := by
  have h1 : protectedVideo (some [9, 8, 7, 6]) [⟨3, [⟨[⟨[118, 49]⟩]⟩]⟩] [118, 49]
      (some (bytesEq ++ [97, 98, 99])) = .serverError := by decide
  refine ⟨h1, ?_⟩
  intro n b hc
  rw [h1] at hc
  exact VideoResponse.noConfusion hc

theorem parseUnsigned_digits (s : JSStr) (h : ∀ x ∈ s, 48 ≤ x ∧ x ≤ 57) :
    parseUnsigned s = parseDecDigits s := by
  match s with
  | [] => rfl
  | [c] => rfl
  | c :: x :: r =>
    have hx := h x (List.mem_cons_of_mem _ (List.mem_cons_self _ _))
    simp only [parseUnsigned]
    rw [if_neg (by omega)]

theorem parseIntJS_cons_of_digit (c : Nat) (r : JSStr) (hc : 48 ≤ c ∧ c ≤ 57) :
    parseIntJS (c :: r) = (parseUnsigned (c :: r)).map (fun n => (n : Int)) := by
  have hws : ¬ (isWs c = true) := by simp [isWs]; omega
  unfold parseIntJS
  rw [List.dropWhile_cons, if_neg hws]
  rw [show ((match (c :: r : JSStr) with
    | [] => (none : JSNum)
    | c :: r =>
      if c = 43 then (parseUnsigned r).map (fun n => (n : Int))
      else if c = 45 then (parseUnsigned r).map (fun n => -(n : Int))
      else (parseUnsigned (c :: r)).map (fun n => (n : Int)))) =
    (if c = 43 then (parseUnsigned r).map (fun n => (n : Int))
      else if c = 45 then (parseUnsigned r).map (fun n => -(n : Int))
      else (parseUnsigned (c :: r)).map (fun n => (n : Int))) from rfl]
  rw [if_neg (by omega), if_neg (by omega)]

theorem parseIntJS_natDecChars (n : Nat) : parseIntJS (natDecChars n) = some (n : Int) := by
  have hd := natDecChars_digits n
  have hne := natDecChars_ne_nil n
  match hmatch : natDecChars n with
  | [] => exact absurd hmatch hne
  | c :: cs =>
    have hc : 48 ≤ c ∧ c ≤ 57 := hd c (hmatch ▸ List.mem_cons_self _ _)
    have hpu : parseUnsigned (c :: cs) = parseDecDigits (c :: cs) := by
      apply parseUnsigned_digits
      rw [← hmatch]
      exact hd
    have hdec : parseDecDigits (c :: cs) = some n := by
      rw [← hmatch]
      exact parseDecDigits_natDecChars n
    rw [parseIntJS_cons_of_digit c cs hc, hpu, hdec]
    rfl

/-- C7: for an authorized, existing file, a well-formed range
`bytes=S-E` (with `S ≤ E < N`) yields a partial-content response declaring
range `S..E` and length `E−S+1` whose body is exactly bytes `S..E`; when
the end offset is omitted it defaults to `N−1`; without a range header the
whole file is served with length `N`; a missing file yields not-found. -/
theorem range_streaming (file : List Nat) (enrolled : List Course) (vid : JSStr)
    (S E : Nat) (hacc : hasAccess enrolled vid = true) (hSE : S ≤ E)
    (hEN : E < file.length) :
    protectedVideo (some file) enrolled vid
        (some (bytesEq ++ (natDecChars S ++ 45 :: natDecChars E)))
      = .partialContent S E file.length ((E : Int) - S + 1)
          ((file.drop S).take (E - S + 1))
    ∧ ((file.drop S).take (E - S + 1)).length = E - S + 1
    ∧ (∀ j, j < E - S + 1 → ((file.drop S).take (E - S + 1))[j]? = file[S + j]?)
    ∧ protectedVideo (some file) enrolled vid
        (some (bytesEq ++ (natDecChars S ++ [45])))
      = .partialContent S ((file.length : Int) - 1) file.length
          ((file.length : Int) - S) ((file.drop S).take (file.length - S))
    ∧ protectedVideo (some file) enrolled vid none = .fullContent file.length file
    ∧ protectedVideo none enrolled vid none = .notFound := by
  have hb : bytesEq ≠ [] := by decide
  have hsdS : ∀ c ∈ natDecChars S, c ≠ 45 := by
    intro c hcm
    have := natDecChars_digits S c hcm
    omega
  have hsdE : ∀ c ∈ natDecChars E, c ≠ 45 := by
    intro c hcm
    have := natDecChars_digits E c hcm
    omega
  have hget1 : ∀ (x y : JSStr), (x :: y :: ([] : List JSStr)).get? 1 = some y :=
    fun _ _ => rfl
  have htoS : ((S : Int)).toNat = S := by omega
  have htoSE : (((E : Int)) - S + 1).toNat = E - S + 1 := by omega
  refine ⟨?_, ?_, ?_, ?_, ?_, ?_⟩
  · simp only [protectedVideo, hacc, Bool.not_true, reduceIte,
      replaceFirst_of_lead bytesEq _ hb, splitChar_append_sep 45 _ _ hsdS,
      splitChar_no_sep 45 (natDecChars E) hsdE, List.headD_cons,
      parseIntJS_natDecChars, hget1, if_neg (natDecChars_ne_nil E),
      sliceFile, htoS, htoSE, not_true, if_false]
  · simp only [List.length_take, List.length_drop]
    omega
  · intro j hj
    rw [List.getElem?_take, if_pos hj, List.getElem?_drop]
  · have hlen : 0 < file.length := by omega
    have hE1 : (((file.length : Int) - 1) - S + 1).toNat = file.length - S := by omega
    have hE2 : ((file.length : Int) - 1) - S + 1 = (file.length : Int) - S := by ring
    have hE3 : ((file.length : Int) - S).toNat = file.length - S := by omega
    simp only [protectedVideo, hacc, Bool.not_true, reduceIte, not_true, if_false]
    rw [show natDecChars S ++ [45] = natDecChars S ++ 45 :: ([] : JSStr) from rfl]
    simp only [replaceFirst_of_lead bytesEq _ hb, splitChar_append_sep 45 _ _ hsdS,
      List.headD_cons, parseIntJS_natDecChars, hget1]
    simp only [splitChar, hget1, reduceIte, sliceFile, htoS, hE1, hE2, hE3]
  · simp [protectedVideo, hacc]
  · rfl

/-- C7 witness: the four-byte file `[9,8,7,6]` requested with `bytes=1-2`
yields a 206 declaring `1..2` of length 2 with body `[8,7]`; with no range
header it yields a 200 of length 4 with the whole file. -/
theorem range_streaming_witness :
    protectedVideo (some [9, 8, 7, 6]) [⟨3, [⟨[⟨[118, 49]⟩]⟩]⟩] [118, 49]
        (some (bytesEq ++ (natDecChars 1 ++ 45 :: natDecChars 2)))
      = .partialContent 1 2 4 2 [8, 7]
    ∧ protectedVideo (some [9, 8, 7, 6]) [⟨3, [⟨[⟨[118, 49]⟩]⟩]⟩] [118, 49] none
      = .fullContent 4 [9, 8, 7, 6] := by
  have h := range_streaming [9, 8, 7, 6] [⟨3, [⟨[⟨[118, 49]⟩]⟩]⟩] [118, 49] 1 2
    (by decide) (by decide) (by decide)
  exact ⟨h.1.trans (by decide), h.2.2.2.2.1⟩

theorem choicePoints_le (t : Test) (q : Question) (c : Bool) (ua : Option AnswerPayload)
    (hp : 0 ≤ q.points) (hnm : 0 ≤ t.negativeMarkingPercentage) :
    choicePoints t q c ua ≤ q.points := by
  unfold choicePoints
  split
  · have h1 : 0 ≤ q.points * t.negativeMarkingPercentage / 100 := by positivity
    linarith
  · split
    · exact le_refl _
    · exact hp

theorem gradeQuestion_le (t : Test) (q : Question) (ua : Option AnswerPayload)
    (c : Bool) (p : ℚ) (hp : 0 ≤ q.points) (hnm : 0 ≤ t.negativeMarkingPercentage)
    (h : gradeQuestion t q ua = some (c, p)) : p ≤ q.points := by
  cases hqt : q.questionType <;> simp only [gradeQuestion, hqt] at h
  case shortAnswer =>
    cases hsa : saIsCorrect q.correctAnswer ua with
    | none => rw [hsa] at h; simp at h
    | some b =>
      rw [hsa] at h
      simp only [Option.map_some', Option.some.injEq, Prod.mk.injEq] at h
      rw [← h.2]
      split
      · exact le_refl _
      · exact hp
  all_goals
    simp only [Option.some.injEq, Prod.mk.injEq] at h
    rw [← h.2]
    exact choicePoints_le t q _ ua hp hnm

theorem gradeAll_sums (t : Test) (sub : Submission)
    (hnm : 0 ≤ t.negativeMarkingPercentage) :
    ∀ (qs : List Question) (off : Nat) (pas : List ProcessedAnswer),
      (∀ q ∈ qs, 0 ≤ q.points) →
      gradeAll t qs off sub = some pas →
      pas.length = qs.length ∧
      (pas.map (·.pointsEarned)).sum ≤ (qs.map (·.points)).sum := by
  intro qs
  induction qs with
  | nil =>
    intro off pas _ h
    simp only [gradeAll, Option.some.injEq] at h
    subst h
    simp
  | cons q qs ih =>
    intro off pas hp h
    simp only [gradeAll] at h
    cases hq : gradeQuestion t q (sub off) with
    | none => rw [hq] at h; simp at h
    | some cp =>
      rw [hq] at h
      obtain ⟨c, p⟩ := cp
      cases hrest : gradeAll t qs (off + 1) sub with
      | none => rw [hrest] at h; simp at h
      | some rest =>
        rw [hrest] at h
        simp only [Option.some.injEq] at h
        subst h
        have hih := ih (off + 1) rest (fun q' hq' => hp q' (List.mem_cons_of_mem _ hq')) hrest
        have hle := gradeQuestion_le t q (sub off) c p
          (hp q (List.mem_cons_self _ _)) hnm hq
        constructor
        · simp [hih.1, mkProcessed]
        · simp only [List.map_cons, List.sum_cons, mkProcessed]
          exact add_le_add hle hih.2

/-- C2: for a test with at least one question (positive point values, a
non-negative negative-marking percentage) and any submission that grades,
the persisted aggregate satisfies: totalPoints is the sum of the question
points and is positive; score is the post-summation clamp
`max 0 (sum of pointsEarned)`; `0 ≤ score ≤ totalPoints`;
percentage is `round(100 · score / totalPoints)` with half-up rounding
(characterised by its defining floor equation and the half-width bounds);
and passed holds iff the percentage reaches `passPercentage`. -/
theorem grading_aggregate_bounds (t : Test) (sub : Submission) (r : GradeOutcome)
    (hq : t.questions ≠ [])
    (hp : ∀ q ∈ t.questions, 0 < q.points)
    (hnm : 0 ≤ t.negativeMarkingPercentage)
    (hr : gradeTest t sub = some r) :
    r.totalPoints = (t.questions.map (·.points)).sum
    ∧ 0 < r.totalPoints
    ∧ r.score = max 0 ((r.answers.map (·.pointsEarned)).sum)
    ∧ 0 ≤ r.score ∧ r.score ≤ r.totalPoints
    ∧ r.percentage = ⌊100 * r.score / r.totalPoints + 1 / 2⌋
    ∧ 100 * r.score / r.totalPoints - 1 / 2 < (r.percentage : ℚ)
    ∧ (r.percentage : ℚ) ≤ 100 * r.score / r.totalPoints + 1 / 2
    ∧ (r.passed = true ↔ t.passPercentage ≤ (r.percentage : ℚ)) := by
  unfold gradeTest at hr
  cases hall : gradeAll t t.questions 0 sub with
  | none => rw [hall] at hr; simp at hr
  | some pas =>
    rw [hall] at hr
    simp only [Option.some.injEq] at hr
    subst hr
    have hsums := gradeAll_sums t sub hnm t.questions 0 pas
      (fun q' hq' => le_of_lt (hp q' hq')) hall
    have htp_pos : 0 < (t.questions.map (·.points)).sum := by
      match hqs : t.questions, hq with
      | q0 :: rest, _ =>
        have h0 : 0 < q0.points := hp q0 (hqs ▸ List.mem_cons_self _ _)
        have hrest : 0 ≤ (rest.map (·.points)).sum := by
          apply List.sum_nonneg
          intro x hx
          obtain ⟨q', hq', rfl⟩ := List.mem_map.mp hx
          exact le_of_lt (hp q' (hqs ▸ List.mem_cons_of_mem _ hq'))
        simp only [List.map_cons, List.sum_cons]
        linarith
    have hscore_le : max 0 ((pas.map (·.pointsEarned)).sum) ≤ (t.questions.map (·.points)).sum :=
      max_le (le_of_lt htp_pos) hsums.2
    have hfloor_eq :
        ((max 0 ((pas.map (·.pointsEarned)).sum)) / (t.questions.map (·.points)).sum * 100 : ℚ)
          = 100 * (max 0 ((pas.map (·.pointsEarned)).sum)) / (t.questions.map (·.points)).sum := by
      ring
    refine ⟨rfl, htp_pos, rfl, le_max_left _ _, hscore_le, ?_, ?_, ?_, ?_⟩
    · simp only [jsRound, hfloor_eq]
    · have h1 := Int.lt_floor_add_one
        (100 * (max 0 ((pas.map (·.pointsEarned)).sum)) / (t.questions.map (·.points)).sum + 1 / 2)
      simp only [jsRound, hfloor_eq]
      linarith
    · have h2 := Int.floor_le
        (100 * (max 0 ((pas.map (·.pointsEarned)).sum)) / (t.questions.map (·.points)).sum + 1 / 2)
      simp only [jsRound, hfloor_eq]
      linarith
    · simp only [ge_iff_le, decide_eq_true_eq]

/-- C2 witness: a one-question test answered correctly grades to score 1
of 1, percentage 100, passed. -/
theorem grading_aggregate_bounds_witness :
    gradeTest ⟨1, 1, 60, false, 25, [⟨.multipleChoiceSingle, [⟨true⟩, ⟨false⟩], [], 1⟩]⟩
        (fun i => if i = 0 then some (.str [48]) else none)
      = some ⟨[⟨0, .single (some 0), some [48], true, 1⟩], 1, 1, 100, true⟩
    ∧ (0 : ℚ) ≤ (1 : ℚ) ∧ (1 : ℚ) ≤ (1 : ℚ)
    ∧ ((true : Bool) = true ↔ (60 : ℚ) ≤ ((100 : Int) : ℚ)) := by
  have h2 : scIsCorrect (some (.str [48])) [⟨true⟩, ⟨false⟩] = true := by decide
  have h3 : parseIntJS [48] = some 0 := by decide
  have hgr : gradeTest ⟨1, 1, 60, false, 25, [⟨.multipleChoiceSingle, [⟨true⟩, ⟨false⟩], [], 1⟩]⟩
      (fun i => if i = 0 then some (.str [48]) else none)
      = some ⟨[⟨0, .single (some 0), some [48], true, 1⟩], 1, 1, 100, true⟩ := by
    simp only [gradeTest, gradeAll, gradeQuestion, h2, h3, mkProcessed, choicePoints]
    norm_num [jsRound, h2, h3]
  have h := grading_aggregate_bounds
    ⟨1, 1, 60, false, 25, [⟨.multipleChoiceSingle, [⟨true⟩, ⟨false⟩], [], 1⟩]⟩
    (fun i => if i = 0 then some (.str [48]) else none)
    ⟨[⟨0, .single (some 0), some [48], true, 1⟩], 1, 1, 100, true⟩
    (by decide)
    (by intro q hqm; rw [List.mem_singleton] at hqm; subst hqm; norm_num)
    (by norm_num) hgr
  exact ⟨hgr, h.2.2.2.1, h.2.2.2.2.1, h.2.2.2.2.2.2.2.2⟩

/-- C3 (divergence): a 10-point short-answer question with 25% negative
marking enabled, answered incorrectly with a non-empty text, earns 0
points — the code never applies negative marking in the short-answer
branch, while the claim requires −2.5. -/
theorem negative_marking_counterexample :
    gradeQuestion ⟨1, 1, 60, true, 25, []⟩
        ⟨.shortAnswer, [], [112, 97, 114, 105, 115], 10⟩
        (some (.str [108, 111, 110, 100, 111, 110]))
      = some (false, 0)
    ∧ ((0 : ℚ) ≠ -(10 * 25 / 100)) := by
  have hsa : saIsCorrect [112, 97, 114, 105, 115]
      (some (.str [108, 111, 110, 100, 111, 110])) = some false := by decide
  constructor
  · simp only [gradeQuestion, hsa, Option.map_some']
    norm_num
  · norm_num

/-- C3 (amended): for every question graded incorrect, the negative-marking
deduction `−(points × negativeMarkingPercentage / 100)` applies exactly to
the choice-type branches (answered, marking enabled); an incorrect
short-answer question always earns 0, whatever the flag and the payload. -/
theorem negative_marking_rule (t : Test) (q : Question) (ua : Option AnswerPayload)
    (c : Bool) (p : ℚ) (hg : gradeQuestion t q ua = some (c, p)) (hc : c = false) :
    (q.questionType ≠ .shortAnswer →
      p = if t.hasNegativeMarking = true ∧ ua.isSome = true
          then -(q.points * t.negativeMarkingPercentage / 100) else 0)
    ∧ (q.questionType = .shortAnswer → p = 0) := by
  subst hc
  cases hqt : q.questionType <;> simp only [gradeQuestion, hqt] at hg
  case shortAnswer =>
    refine ⟨fun hne => absurd rfl hne, fun _ => ?_⟩
    cases hsa : saIsCorrect q.correctAnswer ua with
    | none => rw [hsa] at hg; simp at hg
    | some b =>
      rw [hsa] at hg
      simp only [Option.map_some', Option.some.injEq, Prod.mk.injEq] at hg
      obtain ⟨hb, hp2⟩ := hg
      subst hb
      rw [← hp2]
      simp
  all_goals
    refine ⟨fun _ => ?_, fun habs => QuestionType.noConfusion habs⟩
  all_goals
    simp only [Option.some.injEq, Prod.mk.injEq] at hg
    obtain ⟨hb, hp2⟩ := hg
    rw [← hp2, hb]
    simp [choicePoints, Bool.and_eq_true]

/-- C3 witness: a 10-point single-choice question with 25% negative
marking, answered with an out-of-range option, earns −2.5. -/
theorem negative_marking_rule_witness :
    gradeQuestion ⟨1, 1, 60, true, 25, []⟩
        ⟨.multipleChoiceSingle, [⟨true⟩, ⟨false⟩], [], 10⟩ (some (.str [53]))
      = some (false, -(10 * 25 / 100 : ℚ))
    ∧ (-(10 * 25 / 100 : ℚ))
      = if (⟨1, 1, 60, true, 25, []⟩ : Test).hasNegativeMarking = true
           ∧ (some (AnswerPayload.str [53])).isSome = true
        then -((⟨.multipleChoiceSingle, [⟨true⟩, ⟨false⟩], [], 10⟩ : Question).points
            * (⟨1, 1, 60, true, 25, []⟩ : Test).negativeMarkingPercentage / 100)
        else 0 := by
  have hsc : scIsCorrect (some (.str [53])) [⟨true⟩, ⟨false⟩] = false := by decide
  have hg : gradeQuestion ⟨1, 1, 60, true, 25, []⟩
      ⟨.multipleChoiceSingle, [⟨true⟩, ⟨false⟩], [], 10⟩ (some (.str [53]))
      = some (false, -(10 * 25 / 100 : ℚ)) := by
    simp only [gradeQuestion, hsc, choicePoints]
    norm_num
  refine ⟨hg, ?_⟩
  exact (negative_marking_rule _ _ _ _ _ hg rfl).1 (by decide)

theorem gradeAll_total (t : Test) (sub : Submission) :
    ∀ (qs : List Question) (off : Nat),
      (∀ k q, qs.get? k = some q → q.questionType = .shortAnswer →
        ∀ l, sub (off + k) ≠ some (.arr l)) →
      ∃ pas, gradeAll t qs off sub = some pas ∧ pas.length = qs.length := by
  intro qs
  induction qs with
  | nil => intro off _; exact ⟨[], rfl, rfl⟩
  | cons q qs ih =>
    intro off hsa
    have hq : gradeQuestion t q (sub off) ≠ none := by
      cases hqt : q.questionType <;> simp only [gradeQuestion, hqt]
      case shortAnswer =>
        cases hua : sub off with
        | none => simp [saIsCorrect]
        | some pl =>
          cases pl with
          | str s => cases hres : saIsCorrect q.correctAnswer (some (.str s)) with
            | none =>
              exfalso
              simp only [saIsCorrect] at hres
              by_cases h1 : q.correctAnswer = []
              · rw [if_pos h1] at hres; exact Option.noConfusion hres
              · rw [if_neg h1] at hres
                by_cases h2 : s = []
                · rw [if_pos h2] at hres; exact Option.noConfusion hres
                · rw [if_neg h2] at hres; exact Option.noConfusion hres
            | some b => simp [hres]
          | arr l =>
            exfalso
            have := hsa 0 q (by rfl) hqt l
            rw [Nat.add_zero] at this
            exact this hua
      all_goals simp
    cases hgq : gradeQuestion t q (sub off) with
    | none => exact absurd hgq hq
    | some cp =>
      obtain ⟨c, p⟩ := cp
      have hsa' : ∀ k q', qs.get? k = some q' → q'.questionType = .shortAnswer →
          ∀ l, sub (off + 1 + k) ≠ some (.arr l) := by
        intro k q' hk hty l
        have := hsa (k + 1) q' (by simpa using hk) hty l
        rw [show off + (k + 1) = off + 1 + k from by omega] at this
        exact this
      obtain ⟨rest, hrest, hlen⟩ := ih (off + 1) hsa'
      refine ⟨mkProcessed off (sub off) c p :: rest, ?_, by simp [hlen]⟩
      simp only [gradeAll, hgq, hrest]

theorem gradeAll_congr (t : Test) (sub sub' : Submission) :
    ∀ (qs : List Question) (off : Nat),
      (∀ k, k < qs.length → sub (off + k) = sub' (off + k)) →
      gradeAll t qs off sub = gradeAll t qs off sub' := by
  intro qs
  induction qs with
  | nil => intro off _; rfl
  | cons q qs ih =>
    intro off hagree
    have h0 : sub off = sub' off := by
      have := hagree 0 (by simp)
      simpa using this
    have hih : gradeAll t qs (off + 1) sub = gradeAll t qs (off + 1) sub' := by
      apply ih
      intro k hk
      have := hagree (k + 1) (by simp; omega)
      rw [show off + (k + 1) = off + 1 + k from by omega] at this
      exact this
    simp only [gradeAll, h0, hih]

/-- C9 (divergence): a crafted submission that supplies an *array* payload
for a short-answer question makes the short-answer branch call
`toLowerCase` on an array: the grading pass throws and is aborted (the
route answers 500), so grading does not run to completion for every
payload. -/
theorem grading_crash_counterexample :
    gradeTest ⟨1, 1, 60, false, 25, [⟨.shortAnswer, [], [97], 1⟩]⟩
      (fun i => if i = 0 then some (.arr [[98]]) else none) = none := by
  decide

/-- C9 (amended): for every submission in which no short-answer question
receives an array payload, grading runs to completion with one processed
answer per question; grading reads only answer indices below the question
count; and an out-of-range or `NaN` option index is graded incorrect. -/
theorem grading_robust (t : Test) (sub : Submission)
    (hsa : ∀ k q, t.questions.get? k = some q → q.questionType = .shortAnswer →
      ∀ l, sub k ≠ some (.arr l)) :
    (∃ r, gradeTest t sub = some r ∧ r.answers.length = t.questions.length)
    ∧ (∀ sub' : Submission, (∀ k, k < t.questions.length → sub k = sub' k) →
        gradeTest t sub = gradeTest t sub')
    ∧ (∀ (opts : List AnswerOption) (j : Int), (j < 0 ∨ opts.length ≤ j.toNat) →
        optionIsCorrectAt opts (some j) = false)
    ∧ (∀ opts : List AnswerOption, optionIsCorrectAt opts none = false) := by
  refine ⟨?_, ?_, ?_, ?_⟩
  · obtain ⟨pas, hpas, hlen⟩ := gradeAll_total t sub t.questions 0 (by simpa using hsa)
    have hex : ∃ r, gradeTest t sub = some r ∧ r.answers = pas := by
      unfold gradeTest
      rw [hpas]
      exact ⟨_, rfl, rfl⟩
    obtain ⟨r, hr, hra⟩ := hex
    exact ⟨r, hr, by rw [hra]; exact hlen⟩
  · intro sub' hagree
    have h := gradeAll_congr t sub sub' t.questions 0 (by simpa using hagree)
    simp only [gradeTest, h]
  · intro opts j hj
    simp only [optionIsCorrectAt]
    by_cases hj0 : j < 0
    · rw [if_pos hj0]
    · rw [if_neg hj0]
      have hlen : opts.length ≤ j.toNat := by
        rcases hj with h | h
        · omega
        · exact h
      rw [List.get?_eq_none.mpr hlen]
      rfl
  · intro opts
    rfl

/-- C9 witness: a single-choice test graded against an out-of-range option
index completes with one processed answer and grades it incorrect. -/
theorem grading_robust_witness :
    (∃ r, gradeTest ⟨1, 1, 60, false, 25,
        [⟨.multipleChoiceSingle, [⟨true⟩, ⟨false⟩], [], 1⟩]⟩
        (fun i => if i = 0 then some (.str [53]) else none) = some r
      ∧ r.answers.length = 1)
    ∧ optionIsCorrectAt [⟨true⟩, ⟨false⟩] (some 5) = false := by
  have h := grading_robust ⟨1, 1, 60, false, 25,
      [⟨.multipleChoiceSingle, [⟨true⟩, ⟨false⟩], [], 1⟩]⟩
    (fun i => if i = 0 then some (.str [53]) else none)
    (by
      intro k q hk hty l
      match k, hk with
      | 0, hk =>
        exfalso
        simp only [List.get?_cons_zero, Option.some.injEq] at hk
        rw [← hk] at hty
        simp at hty
      | k + 1, hk =>
        exfalso
        simp at hk)
  exact ⟨h.1, h.2.2.1 [⟨true⟩, ⟨false⟩] 5 (by right; decide)⟩

end LWS
